import Mathlib

/-!
Verification of the mntime benchmark tool (statistics engine, diagnostic
parsing dispatch, report collection, and CLI command normalization).

Modelling conventions:
* Rust f64 sample values are modelled as exact rationals.  A sample value is
  either a finite rational (FVal.fin) or a non-finite value (FVal.nonfin,
  covering NaN and the infinities, which the source treats uniformly through
  the is_finite test).  Every comparison the source performs on samples
  happens after the is_finite filter, so rational comparisons are faithful.
* f64::sqrt is modelled as an arbitrary function parameter sqrt : Rat -> Rat;
  every theorem below is proved for all such functions, so nothing depends on
  properties of the square root.
* The f64 literal 1.4826 is modelled as the exact rational 14826/10000.
* Rust Vec indexing that is provably in bounds is modelled with total getD
  access; the one routine whose indexing can go out of bounds (mean.rs) is
  modelled in the Option monad, where none represents a Rust panic.
-/

/-- Model of an f64 input sample: a finite rational or a non-finite value. -/
inductive FVal where
  | fin (q : ℚ)
  | nonfin
deriving DecidableEq, Repr

/-- Model of f64::is_finite. -/
def FVal.is_finite : FVal → Bool
  | .fin _ => true
  | .nonfin => false

/-- Extract the rational from a finite sample, as used by the filters. -/
def FVal.toQ : FVal → Option ℚ
  | .fin q => some q
  | .nonfin => none

namespace StatsMod

/-- Model of the while loop in stats.rs bisect_right (lines 244-247):
starting at the given index, advance while the index is in bounds and the
element equals x, and return the first index where that fails.  The loop
advances at most length - index times, so that bound is passed as a
structural fuel argument; the fuel-exhausted case coincides with the
bound-check-false case of the loop. -/
def run_right_go (sorted : List ℚ) (x : ℚ) : Nat → Nat → Nat
  | index, 0 => index
  | index, fuel + 1 =>
    if h : index < sorted.length then
      if x = sorted[index] then run_right_go sorted x (index + 1) fuel else index
    else index

/-- The while loop of stats.rs bisect_right with its fuel instantiated. -/
def run_right (sorted : List ℚ) (x : ℚ) (index : Nat) : Nat :=
  run_right_go sorted x index (sorted.length - index)

/-- Model of stats.rs search_right (lines 253-260): scan the index range
from hi - 1 down to lo and return one past the first element that is at
most x; the fuel argument counts the remaining indices, so the scanned
index is lo + k. Out-of-range reads use getD, which never occurs in the
calls the program makes. -/
def search_right_go (sorted : List ℚ) (x : ℚ) (lo : Nat) : Nat → Nat
  | 0 => lo
  | k + 1 => if sorted.getD (lo + k) 0 ≤ x then lo + k + 1 else search_right_go sorted x lo k

/-- Model of stats.rs search_right: the reversed for loop over lo..hi. -/
def search_right (sorted : List ℚ) (x : ℚ) (lo hi : Nat) : Nat :=
  search_right_go sorted x lo (hi - lo)

/-- Model of stats.rs bisect_right (lines 232-251).  The branch guarded by
hi + 7 <= lo is unreachable once lo < hi, exactly as in the source.  Each
recursive call strictly shrinks hi - lo, so that bound is passed as a
structural fuel argument; the fuel-exhausted case has hi - lo = 0, where
the source returns hi. -/
def bisect_go (sorted : List ℚ) (x : ℚ) : Nat → Nat → Nat → Nat
  | _, hi, 0 => hi
  | lo, hi, fuel + 1 =>
    if hi ≤ lo then hi
    else if hi + 7 ≤ lo then search_right sorted x lo hi
    else
      if x < sorted.getD (lo + (hi - lo) / 2) 0 then
        bisect_go sorted x lo (lo + (hi - lo) / 2) fuel
      else if sorted.getD (lo + (hi - lo) / 2) 0 < x then
        bisect_go sorted x (lo + (hi - lo) / 2 + 1) hi fuel
      else run_right sorted x (lo + (hi - lo) / 2 + 1)

/-- stats.rs bisect_right with its fuel instantiated. -/
def bisect_right (sorted : List ℚ) (x : ℚ) (lo hi : Nat) : Nat :=
  bisect_go sorted x lo hi (hi - lo)

/-- The loop body of stats.rs sort_only_finite (lines 221-228): skip a
non-finite value, insert a finite value at the index bisect_right computes. -/
def insert_sample (sorted : List ℚ) (v : FVal) : List ℚ :=
  match v with
  | FVal.nonfin => sorted
  | FVal.fin x => sorted.insertIdx (bisect_right sorted x 0 sorted.length) x

/-- Model of stats.rs sort_only_finite (lines 219-230): fold insert_sample
over the input starting from the empty vector. -/
def sort_only_finite (data : List FVal) : List ℚ :=
  data.foldl insert_sample []

/-- Model of the Stats struct of stats.rs. -/
structure Stats where
  sorted_samples : List ℚ
  nan_count : Nat
  mad : ℚ
  outlier_count : Nat
  lcl : ℚ
  ucl : ℚ
  mean : ℚ
  mean_excluding_outlier : ℚ
  stdev : ℚ
  stdev_excluding_outlier : ℚ
deriving Repr

/-- Model of the derived Default for Stats: empty samples, all zeros. -/
def Stats.default : Stats :=
  { sorted_samples := [], nan_count := 0, mad := 0, outlier_count := 0,
    lcl := 0, ucl := 0, mean := 0, mean_excluding_outlier := 0,
    stdev := 0, stdev_excluding_outlier := 0 }

/-- The local variable median of Stats::calc: sorted[count / 2]. -/
def medianOf (l : List ℚ) : ℚ := l.getD (l.length / 2) 0

/-- The local variable mean of Stats::calc: iterator sum divided by count. -/
def meanOf (l : List ℚ) : ℚ := (l.foldl (fun s x => s + x) 0) / (l.length : ℚ)

/-- The local variable variance of Stats::calc after the division:
the fold accumulating (x - mean)^2, divided by count. -/
def varOf (l : List ℚ) : ℚ :=
  (l.foldl (fun s x => s + (x - meanOf l) ^ 2) 0) / (l.length : ℚ)

/-- The local variable mad of Stats::calc after the division:
the fold accumulating abs (x - median), divided by count. -/
def madOf (l : List ℚ) : ℚ :=
  (l.foldl (fun s x => s + |x - medianOf l|) 0) / (l.length : ℚ)

/-- The Hampel coefficient 1.4826 of Stats::calc, as an exact rational. -/
def coefficient : ℚ := 14826 / 10000

/-- The local variable lcl of Stats::calc: median - 3 * coefficient * mad. -/
def lclOf (l : List ℚ) : ℚ := medianOf l - 3 * coefficient * madOf l

/-- The local variable ucl of Stats::calc: median + 3 * coefficient * mad. -/
def uclOf (l : List ℚ) : ℚ := medianOf l + 3 * coefficient * madOf l

/-- The guard lcl <= min && max <= ucl shared by the three excluding-outlier
computations of Stats::calc, with min and max the first and last elements
(0 when absent, matching unwrap_or). -/
def noOutlierGuard (l : List ℚ) : Bool :=
  decide (lclOf l ≤ l.headD 0) && decide (l.getLastD 0 ≤ uclOf l)

/-- The test lcl <= x && x <= ucl applied to each sample inside the folds
of Stats::calc. -/
def inBounds (l : List ℚ) (x : ℚ) : Bool :=
  decide (lclOf l ≤ x) && decide (x ≤ uclOf l)

/-- The local variable outlier_count of Stats::calc: 0 when the guard holds,
else a fold counting the samples outside the bounds. -/
def outlierCountOf (l : List ℚ) : Nat :=
  if noOutlierGuard l then 0
  else l.foldl (fun s x => if inBounds l x then s else s + 1) 0

/-- The local variable mean_excluding_outlier of Stats::calc: the mean when
the guard holds, else the fold summing in-bounds samples divided by the
remaining count. -/
def meanExOf (l : List ℚ) : ℚ :=
  if noOutlierGuard l then meanOf l
  else (l.foldl (fun s x => if inBounds l x then s + x else s) 0) /
    ((l.length - outlierCountOf l : ℕ) : ℚ)

/-- The local variable variance_excluding_outlier of Stats::calc. -/
def varExOf (l : List ℚ) : ℚ :=
  (l.foldl (fun s x => if inBounds l x then s + (x - meanExOf l) ^ 2 else s) 0) /
    ((l.length - outlierCountOf l : ℕ) : ℚ)

/-- The local variable stdev_excluding_outlier of Stats::calc: the full
standard deviation when the guard holds, else the square root of the
variance excluding outliers. -/
def stdevExOf (sqrt : ℚ → ℚ) (l : List ℚ) : ℚ :=
  if noOutlierGuard l then sqrt (varOf l) else sqrt (varExOf l)

/-- Model of Stats::calc (stats.rs lines 50-129): on empty samples return
unchanged, otherwise recompute every derived field from sorted_samples.
Named recalc because calc is reserved in Lean. -/
def Stats.recalc (sqrt : ℚ → ℚ) (s : Stats) : Stats :=
  if s.sorted_samples.isEmpty then s
  else
    { s with
      mad := madOf s.sorted_samples
      outlier_count := outlierCountOf s.sorted_samples
      lcl := lclOf s.sorted_samples
      ucl := uclOf s.sorted_samples
      mean := meanOf s.sorted_samples
      mean_excluding_outlier := meanExOf s.sorted_samples
      stdev := sqrt (varOf s.sorted_samples)
      stdev_excluding_outlier := stdevExOf sqrt s.sorted_samples }

/-- Model of Stats::new (stats.rs lines 37-47). -/
def Stats.new (sqrt : ℚ → ℚ) (samples : List FVal) : Stats :=
  let sorted := sort_only_finite samples
  Stats.recalc sqrt
    { Stats.default with
      sorted_samples := sorted
      nan_count := samples.length - sorted.length }

/-- Model of Stats::add (stats.rs lines 132-141): non-finite values only
bump nan_count; finite values are inserted in order and trigger recalc.
The insertion index and insertion are insert_sample applied to a finite
value, which is the identical expression in the source. -/
def Stats.add (sqrt : ℚ → ℚ) (s : Stats) (val : FVal) : Stats :=
  match val with
  | FVal.nonfin => { s with nan_count := s.nan_count + 1 }
  | FVal.fin x =>
    Stats.recalc sqrt
      { s with sorted_samples := insert_sample s.sorted_samples (FVal.fin x) }

/-- Model of Stats::count. -/
def Stats.count (s : Stats) : Nat := s.sorted_samples.length

/-- Model of Stats::median: sorted_samples[len / 2], 0 when out of range. -/
def Stats.median (s : Stats) : ℚ :=
  s.sorted_samples.getD (s.sorted_samples.length / 2) 0

/-- Model of Stats::min: first element, 0 when absent. -/
def Stats.min (s : Stats) : ℚ := s.sorted_samples.headD 0

/-- Model of Stats::max: last element, 0 when absent. -/
def Stats.max (s : Stats) : ℚ := s.sorted_samples.getLastD 0

/-- Model of Stats::min_excluding_outlier: the first sample at least lcl,
0 when none is found. -/
def Stats.min_excluding_outlier (s : Stats) : ℚ :=
  (s.sorted_samples.find? (fun x => decide (s.lcl ≤ x))).getD 0

/-- Model of Stats::max_excluding_outlier: the last sample at most ucl,
0 when none is found. -/
def Stats.max_excluding_outlier (s : Stats) : ℚ :=
  ((s.sorted_samples.filter (fun x => decide (x ≤ s.ucl))).getLast?).getD 0

/-- Model of Stats::median_excluding_outlier: among the samples inside
the bounds, the element at index count / 2, 0 when out of range. -/
def Stats.median_excluding_outlier (s : Stats) : ℚ :=
  let ex := s.sorted_samples.filter (fun x => decide (s.lcl ≤ x) && decide (x ≤ s.ucl))
  ex.getD (ex.length / 2) 0

/-- The upper-bound position of x in l: the number of elements at most x.
On a sorted list this is the index bisect_right returns. -/
def ub (l : List ℚ) (x : ℚ) : Nat := l.countP (fun y => decide (y ≤ x))

/-- The canonical Stats value whose derived fields are recomputed from the
given sample list and NaN counter: recalc applied to an otherwise default
record. Every reachable Stats value is of this shape. -/
def statsOf (sqrt : ℚ → ℚ) (l : List ℚ) (n : Nat) : Stats :=
  Stats.recalc sqrt
    { Stats.default with sorted_samples := l, nan_count := n }

end StatsMod

namespace CmdMod

/-- Model of the MeasItem enum of cmd.rs (lines 24-51). -/
inductive MeasItem where
  | ExitStatus
  | Real
  | User
  | Sys
  | CpuUsage
  | AvgSharedText
  | AvgUnsharedData
  | AvgStack
  | AvgTotal
  | MaxResident
  | AvgResident
  | MajorPageFault
  | MinorPageFault
  | VoluntaryCtxSwitch
  | InvoluntaryCtxSwitch
  | Swap
  | BlockInput
  | BlockOutput
  | MsgSend
  | MsgRecv
  | SignalRecv
  | Page
  | Instruction
  | Cycle
  | PeakMemory
  | Unknown (name : String)
deriving DecidableEq, Repr

/-- Model of HashMap insert on the measurement map: replace any binding of
the key and bind it to the new value. Only lookup is observable. -/
def hmInsert (m : List (MeasItem × ℚ)) (k : MeasItem) (v : ℚ) :
    List (MeasItem × ℚ) :=
  (k, v) :: m.filter (fun p => !(p.1 == k))

/-- Model of one iteration of the match in the GNU parse closure of
try_new_gnu_time (cmd.rs lines 352-426), dispatching one captured
(name, value) pair. The regex engine itself is not modelled: the closure is
modelled over the list of (name, value) captures its loop iterates over,
with the value already converted by capture_name_and_val. kbytes-labelled
values are scaled by 1024 exactly as in the source. -/
def gnu_insert (m : List (MeasItem × ℚ)) (name : String) (v : ℚ) :
    List (MeasItem × ℚ) :=
  let kb : ℚ := 1024
  if name = "Command being timed" then m
  else if name = "User time (seconds)" then hmInsert m MeasItem.User v
  else if name = "System time (seconds)" then hmInsert m MeasItem.Sys v
  else if name = "Percent of CPU this job got" then hmInsert m MeasItem.CpuUsage v
  else if name = "Elapsed (wall clock) time (h:mm:ss or m:ss)" then
    hmInsert m MeasItem.Real v
  else if name = "Average shared text size (kbytes)" then
    hmInsert m MeasItem.AvgSharedText (v * kb)
  else if name = "Average unshared data size (kbytes)" then
    hmInsert m MeasItem.AvgUnsharedData (v * kb)
  else if name = "Average stack size (kbytes)" then
    hmInsert m MeasItem.AvgStack (v * kb)
  else if name = "Average total size (kbytes)" then
    hmInsert m MeasItem.AvgTotal (v * kb)
  else if name = "Maximum resident set size (kbytes)" then
    hmInsert m MeasItem.MaxResident (v * kb)
  else if name = "Average resident set size (kbytes)" then
    hmInsert m MeasItem.AvgResident (v * kb)
  else if name = "Major (requiring I/O) page faults" then
    hmInsert m MeasItem.MajorPageFault v
  else if name = "Minor (reclaiming a frame) page faults" then
    hmInsert m MeasItem.MinorPageFault v
  else if name = "Voluntary context switches" then
    hmInsert m MeasItem.VoluntaryCtxSwitch v
  else if name = "Involuntary context switches" then
    hmInsert m MeasItem.InvoluntaryCtxSwitch v
  else if name = "Swaps" then hmInsert m MeasItem.Swap v
  else if name = "File system inputs" then hmInsert m MeasItem.BlockInput v
  else if name = "File system outputs" then hmInsert m MeasItem.BlockOutput v
  else if name = "Socket messages sent" then hmInsert m MeasItem.MsgSend v
  else if name = "Socket messages received" then hmInsert m MeasItem.MsgRecv v
  else if name = "Signals delivered" then hmInsert m MeasItem.SignalRecv v
  else if name = "Page size (bytes)" then hmInsert m MeasItem.Page v
  else if name = "Exit status" then hmInsert m MeasItem.ExitStatus v
  else hmInsert m (MeasItem.Unknown name) v

/-- Model of the whole GNU parse closure: fold gnu_insert over the captured
(name, value) pairs starting from the empty map. -/
def gnu_parse_items (caps : List (String × ℚ)) : List (MeasItem × ℚ) :=
  caps.foldl (fun m nv => gnu_insert m nv.1 nv.2) []

/-- Model of the CmdError enum of cmd.rs (lines 218-225). -/
inductive CmdError where
  | NotReady
  | NotFinished
  | ParseError (which : String)
deriving DecidableEq, Repr

/-- Model of the TimeCmd state that get_report reads: whether the child has
finished, the OS exit code of the child (none models a process killed by a
signal, where code() is None), the diagnostic stream (abstracted to the
capture list the parse closure receives), and the cached report. -/
structure TimeCmd (δ : Type) where
  finished : Bool
  exit_code : Option Int
  err_msg : δ
  meas_report : Option (List (MeasItem × ℚ))

/-- Model of TimeCmd::get_report (cmd.rs lines 488-509): error before the
child finished; return the cache when present; otherwise parse the stream,
error on an empty result, and insert an ExitStatus entry from the OS exit
code (unwrap_or_default gives 0 when code() is None) exactly when the
parsed map lacks one; finally cache and return. -/
def TimeCmd.get_report {δ : Type} (parse : δ → List (MeasItem × ℚ))
    (c : TimeCmd δ) :
    Except CmdError (TimeCmd δ × List (MeasItem × ℚ)) :=
  if !c.finished then .error CmdError.NotFinished
  else
    match c.meas_report with
    | some r => .ok (c, r)
    | none =>
      let meas_items := parse c.err_msg
      if meas_items.isEmpty then .error (CmdError.ParseError "time")
      else
        let meas_items :=
          if (meas_items.lookup MeasItem.ExitStatus).isNone then
            hmInsert meas_items MeasItem.ExitStatus ((c.exit_code.getD 0 : Int) : ℚ)
          else meas_items
        .ok ({ c with meas_report := some meas_items }, meas_items)

end CmdMod

namespace CliMod

/-- The single-quote character; Rust writes it as the char literal. -/
def squote : Char := Char.ofNat 39

/-- The double-quote character. -/
def dquote : Char := Char.ofNat 34

/-- The backslash character used by the escape replacement. -/
def backslash : Char := Char.ofNat 92

/-- The dash character of a leading option and of the delimiter. -/
def dash : Char := Char.ofNat 45

/-- The space character used by contains and join. -/
def space : Char := Char.ofNat 32

/-- Model of Rust str::starts_with on a single char, over strings modelled
as character lists. -/
def startsWithChar (s : List Char) (c : Char) : Bool := s.head? == some c

/-- Model of Rust str::ends_with on a single char. -/
def endsWithChar (s : List Char) (c : Char) : Bool := s.getLast? == some c

/-- Model of is_quoted (cli_args.rs lines 124-126): starts and ends with a
double quote, or starts and ends with a single quote. -/
def is_quoted (s : List Char) : Bool :=
  (startsWithChar s dquote && endsWithChar s dquote) ||
    (startsWithChar s squote && endsWithChar s squote)

/-- Model of str::replace of a single quote by backslash-quote, as used in
to_quoted. -/
def escape_squotes (s : List Char) : List Char :=
  (s.map (fun c => if c == squote then [backslash, squote] else [c])).flatten

/-- Model of to_quoted (cli_args.rs lines 128-133): return the token
unchanged when already quoted or starting with a dash, otherwise wrap it in
single quotes with internal single quotes escaped. -/
def to_quoted (s : List Char) : List Char :=
  if is_quoted s || startsWithChar s dash then s
  else [squote] ++ escape_squotes s ++ [squote]

/-- The delimiters string of normalized_commands, two dashes. -/
def delimiters : List Char := [dash, dash]

/-- Model of Vec join with a single-space separator. -/
def joinSpace (xs : List (List Char)) : List Char :=
  List.intercalate [space] xs

/-- One iteration of the loop of CliArgs::normalized_commands (cli_args.rs
lines 95-116), with state (commands, one_command_and_args). -/
def normalized_step (st : List (List Char) × List (List Char))
    (one : List Char) : List (List Char) × List (List Char) :=
  if st.2.isEmpty then
    if one = delimiters then st
    else if one.contains space then (st.1 ++ [one], st.2)
    else (st.1, st.2 ++ [one])
  else if one = delimiters then (st.1 ++ [joinSpace st.2], [])
  else (st.1, st.2 ++ [to_quoted one])

/-- Model of CliArgs::normalized_commands (cli_args.rs lines 91-121). -/
def normalized_commands (tokens : List (List Char)) : List (List Char) :=
  let st := tokens.foldl normalized_step ([], [])
  if st.2.isEmpty then st.1 else st.1 ++ [joinSpace st.2]

/-- Definition written from the claim's words, to compare with to_quoted:
a token containing neither spaces nor a leading dash is left bare, and
every other token is single-quoted with internal single quotes escaped. -/
def to_quoted_claim (s : List Char) : List Char :=
  if !(s.contains space) && !(startsWithChar s dash) then s
  else [squote] ++ escape_squotes s ++ [squote]

end CliMod

namespace MeanMod

/-!
Model of mean.rs.  Its bisect_right differs from the stats.rs one in a
single place: the run-right while loop reads sorted[index] without first
checking index < sorted.len().  Slice indexing is therefore modelled in the
Option monad, where none represents a Rust index-out-of-bounds panic.
-/

/-- Model of the while loop of mean.rs bisect_right (lines 181-183):
while x == sorted[index] { index += 1 } with no bounds test, so reading one
past the end of the slice is a panic, modelled as none.  The loop advances
at most length + 1 - index times before the read goes out of bounds, so
that bound is passed as structural fuel; the fuel-exhausted case has
index > length, where the read is out of bounds and the source panics. -/
def run_right_go (sorted : List ℚ) (x : ℚ) : Nat → Nat → Option Nat
  | _, 0 => none
  | index, fuel + 1 =>
    match sorted.get? index with
    | none => none
    | some v => if x = v then run_right_go sorted x (index + 1) fuel else some index

/-- The while loop of mean.rs bisect_right with its fuel instantiated. -/
def run_right (sorted : List ℚ) (x : ℚ) (index : Nat) : Option Nat :=
  run_right_go sorted x index (sorted.length + 1 - index)

/-- Model of mean.rs search_right (lines 190-197), the reversed scan; its
slice read is modelled with get?. -/
def search_right_go (sorted : List ℚ) (x : ℚ) (lo : Nat) : Nat → Option Nat
  | 0 => some lo
  | k + 1 =>
    match sorted.get? (lo + k) with
    | none => none
    | some v => if v ≤ x then some (lo + k + 1) else search_right_go sorted x lo k

/-- Model of mean.rs search_right: the reversed for loop over lo..hi. -/
def search_right (sorted : List ℚ) (x : ℚ) (lo hi : Nat) : Option Nat :=
  search_right_go sorted x lo (hi - lo)

/-- Model of mean.rs bisect_right (lines 169-188), with the strictly
decreasing bound hi - lo passed as structural fuel; the fuel-exhausted case
has hi - lo = 0, where the source returns hi. -/
def bisect_go (sorted : List ℚ) (x : ℚ) : Nat → Nat → Nat → Option Nat
  | _, hi, 0 => some hi
  | lo, hi, fuel + 1 =>
    if hi ≤ lo then some hi
    else if hi + 7 ≤ lo then search_right sorted x lo hi
    else
      match sorted.get? (lo + (hi - lo) / 2) with
      | none => none
      | some m =>
        if x < m then bisect_go sorted x lo (lo + (hi - lo) / 2) fuel
        else if m < x then bisect_go sorted x (lo + (hi - lo) / 2 + 1) hi fuel
        else run_right sorted x (lo + (hi - lo) / 2 + 1)

/-- mean.rs bisect_right with its fuel instantiated. -/
def bisect_right (sorted : List ℚ) (x : ℚ) (lo hi : Nat) : Option Nat :=
  bisect_go sorted x lo hi (hi - lo)

/-- Model of mean.rs sort_only_finite (lines 156-167); Vec::insert panics
when the index exceeds the length, modelled as none. -/
def sort_only_finite (data : List FVal) : Option (List ℚ) :=
  data.foldlM
    (fun sorted v =>
      match v with
      | FVal.nonfin => some sorted
      | FVal.fin x => do
        let i ← bisect_right sorted x 0 sorted.length
        if i ≤ sorted.length then some (sorted.insertIdx i x) else none)
    []

/-- Model of the Mean struct of mean.rs (lines 4-32). -/
structure Mean where
  sorted_population : List ℚ
  nan_count : Nat
  median : ℚ
  mad : ℚ
  outlier_count : Nat
  outlier_lower : ℚ
  outlier_upper : ℚ
  mean : ℚ
  mean_excluding_outlier : ℚ
  stdev : ℚ
  stdev_excluding_outlier : ℚ
deriving Repr

/-- Model of the derived Default for Mean. -/
def Mean.default : Mean :=
  { sorted_population := [], nan_count := 0, median := 0, mad := 0,
    outlier_count := 0, outlier_lower := 0, outlier_upper := 0, mean := 0,
    mean_excluding_outlier := 0, stdev := 0, stdev_excluding_outlier := 0 }

/-- Model of Mean::new (mean.rs lines 37-126).  The statistical body after
sorting is textually the same computation as Stats::calc, so the shared
helper definitions of StatsMod are reused; the possible panic is confined
to sort_only_finite, whose failure propagates as none. -/
def Mean.new (sqrt : ℚ → ℚ) (population : List FVal) : Option Mean :=
  if population.isEmpty then some Mean.default
  else
    match sort_only_finite population with
    | none => none
    | some sorted =>
      if sorted.length = 0 then
        some { Mean.default with outlier_count := population.length }
      else
        some
          { sorted_population := sorted
            nan_count := population.length - sorted.length
            median := StatsMod.medianOf sorted
            mad := StatsMod.madOf sorted
            outlier_count := StatsMod.outlierCountOf sorted
            outlier_lower := StatsMod.lclOf sorted
            outlier_upper := StatsMod.uclOf sorted
            mean := StatsMod.meanOf sorted
            mean_excluding_outlier := StatsMod.meanExOf sorted
            stdev := sqrt (StatsMod.varOf sorted)
            stdev_excluding_outlier := StatsMod.stdevExOf sqrt sorted }

end MeanMod

namespace StatsMod

/-- Counting helper: when a predicate holds at exactly the indices below j,
the count equals j. -/
theorem countP_split {α : Type} (p : α → Bool) :
    ∀ (l : List α) (j : Nat), j ≤ l.length →
      (∀ i (h : i < l.length), i < j → p l[i] = true) →
      (∀ i (h : i < l.length), j ≤ i → p l[i] = false) →
      l.countP p = j := by
  intro l
  induction l with
  | nil =>
    intro j hj _ _
    simpa using Nat.le_zero.mp hj |>.symm
  | cons a t ih =>
    intro j hj h1 h2
    cases j with
    | zero =>
      have ha : p a = false := h2 0 (by simp) (Nat.zero_le _)
      rw [List.countP_cons_of_neg _ _ (by simp [ha])]
      exact ih 0 (Nat.zero_le _) (fun i h hi => absurd hi (Nat.not_lt_zero i))
        (fun i h _ => by
          have := h2 (i + 1) (by simpa using Nat.succ_lt_succ h) (Nat.zero_le _)
          simpa using this)
    | succ k =>
      have ha : p a = true := h1 0 (by simp) (Nat.succ_pos k)
      rw [List.countP_cons_of_pos _ _ (by simp [ha])]
      have ht : t.countP p = k := by
        refine ih k (by simpa using Nat.succ_le_succ_iff.mp hj) ?_ ?_
        · intro i h hi
          have := h1 (i + 1) (by simpa using Nat.succ_lt_succ h)
            (Nat.succ_lt_succ hi)
          simpa using this
        · intro i h hi
          have := h2 (i + 1) (by simpa using Nat.succ_lt_succ h)
            (Nat.succ_le_succ hi)
          simpa using this
      omega

/-- Elements of a list sorted ascending are monotone in the index. -/
theorem sorted_le {l : List ℚ} (hs : l.Pairwise (· ≤ ·)) {i j : Nat}
    (hi : i < l.length) (hj : j < l.length) (hij : i ≤ j) : l[i] ≤ l[j] := by
  rcases Nat.lt_or_ge i j with h | h
  · exact List.pairwise_iff_getElem.mp hs i j hi hj h
  · have : i = j := by omega
    subst this
    exact le_rfl

/-- On a sorted list whose prefix below j is at most x and whose suffix from
j is at least x, the run-right loop lands on the upper-bound position, for
any fuel at least the remaining distance. -/
theorem run_right_go_eq_ub (l : List ℚ) (x : ℚ) (hs : l.Pairwise (· ≤ ·)) :
    ∀ (n j : Nat), l.length - j ≤ n → j ≤ l.length →
      (∀ i (h : i < l.length), i < j → l[i] ≤ x) →
      (∀ i (h : i < l.length), j ≤ i → x ≤ l[i]) →
      run_right_go l x j n = ub l x := by
  intro n
  induction n with
  | zero =>
    intro j hfuel hj h1 h2
    have hj' : j = l.length := by omega
    simp only [run_right_go]
    subst hj'
    exact (countP_split _ l l.length le_rfl
      (fun i h _ => by simpa using h1 i h h)
      (fun i h hle => absurd h (by omega))).symm
  | succ n ihn =>
    intro j hfuel hj h1 h2
    rw [run_right_go]
    by_cases hjl : j < l.length
    · rw [dif_pos hjl]
      by_cases hx : x = l[j]
      · rw [if_pos hx]
        refine ihn (j + 1) (by omega) (by omega) ?_ ?_
        · intro i h hi
          rcases Nat.lt_or_ge i j with h' | h'
          · exact h1 i h h'
          · have : i = j := by omega
            subst this
            exact le_of_eq hx.symm
        · intro i h hi
          exact h2 i h (by omega)
      · rw [if_neg hx]
        have hxj : x < l[j] := lt_of_le_of_ne (h2 j hjl le_rfl) hx
        refine (countP_split _ l j hj
          (fun i h hi => by simpa using h1 i h hi)
          (fun i h hi => ?_)).symm
        have : x < l[i] := lt_of_lt_of_le hxj (sorted_le hs hjl h hi)
        simpa using not_le.mpr this
    · rw [dif_neg hjl]
      have hj' : j = l.length := by omega
      subst hj'
      exact (countP_split _ l l.length le_rfl
        (fun i h _ => by simpa using h1 i h h)
        (fun i h hle => absurd h (by omega))).symm

/-- On a sorted list with correct search brackets, the bisection lands on
the upper-bound position, for any fuel at least the bracket width. -/
theorem bisect_go_eq_ub (l : List ℚ) (x : ℚ) (hs : l.Pairwise (· ≤ ·)) :
    ∀ (n lo hi : Nat), hi - lo ≤ n → lo ≤ hi → hi ≤ l.length →
      (∀ i (h : i < l.length), i < lo → l[i] ≤ x) →
      (∀ i (h : i < l.length), hi ≤ i → x < l[i]) →
      bisect_go l x lo hi n = ub l x := by
  intro n
  induction n with
  | zero =>
    intro lo hi hfuel hle hlen h1 h2
    have heq : hi = lo := by omega
    simp only [bisect_go]
    exact (countP_split _ l hi hlen
      (fun i h hi' => by simpa using h1 i h (by omega))
      (fun i h hi' => by simpa using not_le.mpr (h2 i h hi'))).symm
  | succ n ihn =>
    intro lo hi hfuel hle hlen h1 h2
    by_cases hlo : hi ≤ lo
    · have heq : hi = lo := by omega
      rw [bisect_go, if_pos hlo]
      exact (countP_split _ l hi hlen
        (fun i h hi' => by simpa using h1 i h (by omega))
        (fun i h hi' => by simpa using not_le.mpr (h2 i h hi'))).symm
    · have hltlo : lo < hi := by omega
      have hmid2 : (hi - lo) / 2 < hi - lo := Nat.div_lt_self (by omega) one_lt_two
      have hmidlt : lo + (hi - lo) / 2 < hi := by omega
      have hmidlen : lo + (hi - lo) / 2 < l.length := by omega
      have hget : l.getD (lo + (hi - lo) / 2) 0 = l[lo + (hi - lo) / 2] := by
        simp [List.getD_eq_getElem?_getD, List.getElem?_eq_getElem hmidlen]
      rw [bisect_go, if_neg hlo, if_neg (by omega), hget]
      by_cases hxm : x < l[lo + (hi - lo) / 2]
      · rw [if_pos hxm]
        refine ihn lo (lo + (hi - lo) / 2) (by omega) (by omega) (by omega) h1 ?_
        intro i h hi'
        exact lt_of_lt_of_le hxm (sorted_le hs hmidlen h hi')
      · rw [if_neg hxm]
        by_cases hmx : l[lo + (hi - lo) / 2] < x
        · rw [if_pos hmx]
          refine ihn (lo + (hi - lo) / 2 + 1) hi (by omega) (by omega) hlen ?_ h2
          intro i h hi'
          exact le_of_lt (lt_of_le_of_lt (sorted_le hs h hmidlen (by omega)) hmx)
        · rw [if_neg hmx]
          have heq : l[lo + (hi - lo) / 2] = x := le_antisymm (not_lt.mp hxm) (not_lt.mp hmx)
          rw [run_right]
          refine run_right_go_eq_ub l x hs (l.length - (lo + (hi - lo) / 2 + 1))
            (lo + (hi - lo) / 2 + 1) le_rfl (by omega) ?_ ?_
          · intro i h hi'
            exact le_of_le_of_eq (sorted_le hs h hmidlen (by omega)) heq
          · intro i h hi'
            exact le_of_eq_of_le heq.symm (sorted_le hs hmidlen h (by omega))

/-- On a sorted list, the full-range bisect_right call used by the program
computes the upper-bound position. -/
theorem bisect_right_sorted (l : List ℚ) (x : ℚ) (hs : l.Pairwise (· ≤ ·)) :
    bisect_right l x 0 l.length = ub l x := by
  rw [bisect_right]
  exact bisect_go_eq_ub l x hs (l.length - 0) 0 l.length le_rfl (Nat.zero_le _) le_rfl
    (fun i _ hi => absurd hi (Nat.not_lt_zero i))
    (fun i h hi => absurd h (by omega))

/-- The upper-bound position never exceeds the length. -/
theorem ub_le_length (l : List ℚ) (x : ℚ) : ub l x ≤ l.length :=
  List.countP_le_length _

/-- Inserting at the upper-bound position produces a permutation of the
element consed to the list. -/
theorem insertIdx_ub_perm (l : List ℚ) (x : ℚ) :
    (l.insertIdx (ub l x) x).Perm (x :: l) :=
  List.perm_insertIdx x l (ub_le_length l x)

/-- Inserting at the upper-bound position preserves ascending order. -/
theorem insertIdx_ub_sorted :
    ∀ (l : List ℚ), l.Pairwise (· ≤ ·) →
      ∀ x, (l.insertIdx (ub l x) x).Pairwise (· ≤ ·) := by
  intro l
  induction l with
  | nil =>
    intro _ x
    simp [ub]
  | cons a t ih =>
    intro hs x
    rcases List.pairwise_cons.mp hs with ⟨ha, ht⟩
    by_cases hax : a ≤ x
    · have hub : ub (a :: t) x = ub t x + 1 := by
        simp [ub, List.countP_cons, hax]
      rw [hub, List.insertIdx_succ_cons]
      refine List.pairwise_cons.mpr ⟨?_, ih ht x⟩
      intro y hy
      have hy' : y = x ∨ y ∈ t := by
        simpa using (insertIdx_ub_perm t x).mem_iff.mp hy
      rcases hy' with rfl | hyt
      · exact hax
      · exact ha y hyt
    · have hxa : x < a := not_le.mp hax
      have h0 : ub (a :: t) x = 0 := by
        rw [ub, List.countP_eq_zero]
        intro y hy
        rcases List.mem_cons.mp hy with rfl | hyt
        · simpa using hax
        · simpa using not_le.mpr (lt_of_lt_of_le hxa (ha y hyt))
      rw [h0, List.insertIdx_zero]
      refine List.pairwise_cons.mpr ⟨?_, hs⟩
      intro y hy
      rcases List.mem_cons.mp hy with rfl | hyt
      · exact le_of_lt hxa
      · exact le_of_lt (lt_of_lt_of_le hxa (ha y hyt))

/-- insert_sample keeps the sample list sorted. -/
theorem insert_sample_sorted (l : List ℚ) (hs : l.Pairwise (· ≤ ·)) (v : FVal) :
    (insert_sample l v).Pairwise (· ≤ ·) := by
  cases v with
  | nonfin => exact hs
  | fin x =>
    rw [insert_sample, bisect_right_sorted l x hs]
    exact insertIdx_ub_sorted l hs x

/-- insert_sample on a sorted list permutes to appending the finite part of
the new value. -/
theorem insert_sample_perm (l : List ℚ) (hs : l.Pairwise (· ≤ ·)) (v : FVal) :
    (insert_sample l v).Perm (l ++ (FVal.toQ v).toList) := by
  cases v with
  | nonfin => simp [insert_sample, FVal.toQ]
  | fin x =>
    rw [insert_sample, bisect_right_sorted l x hs]
    exact (insertIdx_ub_perm l x).trans (List.perm_append_singleton x l).symm

/-- Folding insert_sample over any input preserves order and accumulates the
finite values as a multiset. -/
theorem foldl_insert_sorted_perm :
    ∀ (data : List FVal) (acc : List ℚ), acc.Pairwise (· ≤ ·) →
      (data.foldl insert_sample acc).Pairwise (· ≤ ·) ∧
        (data.foldl insert_sample acc).Perm (acc ++ data.filterMap FVal.toQ) := by
  intro data
  induction data with
  | nil =>
    intro acc h
    exact ⟨h, by simp⟩
  | cons v d ih =>
    intro acc h
    rw [List.foldl_cons]
    obtain ⟨hs', hp'⟩ := ih (insert_sample acc v) (insert_sample_sorted acc h v)
    refine ⟨hs', ?_⟩
    have h2 := (insert_sample_perm acc h v).append_right (d.filterMap FVal.toQ)
    rw [List.append_assoc] at h2
    have hl : (FVal.toQ v).toList ++ d.filterMap FVal.toQ
        = (v :: d).filterMap FVal.toQ := by
      cases v <;> simp [FVal.toQ]
    rw [hl] at h2
    exact hp'.trans h2

/-- sort_only_finite always returns an ascending list. -/
theorem sort_only_finite_sorted (data : List FVal) :
    (sort_only_finite data).Pairwise (· ≤ ·) :=
  (foldl_insert_sorted_perm data [] List.Pairwise.nil).1

/-- sort_only_finite returns a permutation of the finite inputs. -/
theorem sort_only_finite_perm (data : List FVal) :
    (sort_only_finite data).Perm (data.filterMap FVal.toQ) := by
  have := (foldl_insert_sorted_perm data [] List.Pairwise.nil).2
  simpa [sort_only_finite] using this

/-- sort_only_finite is determined by the multiset of finite inputs. -/
theorem sort_only_finite_eq_of_perm {d₁ d₂ : List FVal}
    (h : (d₁.filterMap FVal.toQ).Perm (d₂.filterMap FVal.toQ)) :
    sort_only_finite d₁ = sort_only_finite d₂ :=
  List.eq_of_perm_of_sorted
    ((sort_only_finite_perm d₁).trans (h.trans (sort_only_finite_perm d₂).symm))
    (sort_only_finite_sorted d₁) (sort_only_finite_sorted d₂)

/-- sort_only_finite agrees with the canonical ascending sort of the
multiset of finite inputs. -/
theorem sort_only_finite_eq_sort (data : List FVal) :
    sort_only_finite data =
      Multiset.sort (· ≤ ·) (↑(data.filterMap FVal.toQ)) := by
  refine List.eq_of_perm_of_sorted ?_ (sort_only_finite_sorted data)
    (Multiset.sort_sorted _ _)
  refine (sort_only_finite_perm data).trans ?_
  exact (Multiset.coe_eq_coe.mp (Multiset.sort_eq (· ≤ ·) _)).symm

end StatsMod

namespace StatsMod

/-- The sample list of the canonical state. -/
theorem statsOf_sorted_samples (sqrt : ℚ → ℚ) (l : List ℚ) (n : Nat) :
    (statsOf sqrt l n).sorted_samples = l := by
  cases l <;> rfl

/-- The NaN counter of the canonical state. -/
theorem statsOf_nan (sqrt : ℚ → ℚ) (l : List ℚ) (n : Nat) :
    (statsOf sqrt l n).nan_count = n := by
  cases l <;> rfl

/-- Explicit form of the canonical state on a non-empty sample list. -/
theorem statsOf_ne (sqrt : ℚ → ℚ) (l : List ℚ) (n : Nat) (h : l ≠ []) :
    statsOf sqrt l n =
      ⟨l, n, madOf l, outlierCountOf l, lclOf l, uclOf l, meanOf l, meanExOf l,
        sqrt (varOf l), stdevExOf sqrt l⟩ := by
  rw [statsOf, Stats.recalc]
  simp [List.isEmpty_iff, h]

/-- Explicit form of the canonical state on the empty sample list. -/
theorem statsOf_nil (sqrt : ℚ → ℚ) (n : Nat) :
    statsOf sqrt [] n = ⟨[], n, 0, 0, 0, 0, 0, 0, 0, 0⟩ := rfl

/-- recalc on any state with non-empty samples canonicalizes it. -/
theorem recalc_canon (sqrt : ℚ → ℚ) (s : Stats) (h : s.sorted_samples ≠ []) :
    Stats.recalc sqrt s = statsOf sqrt s.sorted_samples s.nan_count := by
  obtain ⟨l, n, m1, o1, lc, uc, me, mex, sd, sdx⟩ := s
  simp only at h
  rw [Stats.recalc, statsOf, Stats.recalc]
  simp [List.isEmpty_iff, h]

/-- Changing the NaN counter of a canonical state stays canonical. -/
theorem statsOf_set_nan (sqrt : ℚ → ℚ) (l : List ℚ) (n m : Nat) :
    { statsOf sqrt l n with nan_count := m } = statsOf sqrt l m := by
  by_cases h : l = []
  · subst h; rfl
  · rw [statsOf_ne sqrt l n h, statsOf_ne sqrt l m h]

/-- Inserting a finite value never yields the empty list. -/
theorem insert_sample_fin_ne_nil (l : List ℚ) (hs : l.Pairwise (· ≤ ·)) (x : ℚ) :
    insert_sample l (FVal.fin x) ≠ [] := by
  have hlen := (insert_sample_perm l hs (FVal.fin x)).length_eq
  simp [FVal.toQ] at hlen
  intro hc
  rw [hc] at hlen
  simp at hlen

/-- Stats::new builds the canonical state of its sorted finite samples. -/
theorem new_canon (sqrt : ℚ → ℚ) (data : List FVal) :
    Stats.new sqrt data =
      statsOf sqrt (sort_only_finite data)
        (data.length - (sort_only_finite data).length) := rfl

/-- Stats::add maps a canonical state to the canonical state of the
extended sample list, counting one more NaN for a non-finite value. -/
theorem add_canon (sqrt : ℚ → ℚ) (l : List ℚ) (n : Nat) (v : FVal)
    (hs : l.Pairwise (· ≤ ·)) :
    Stats.add sqrt (statsOf sqrt l n) v =
      statsOf sqrt (insert_sample l v)
        (n + if v.is_finite then 0 else 1) := by
  cases v with
  | nonfin =>
    show { statsOf sqrt l n with
      nan_count := (statsOf sqrt l n).nan_count + 1 } = _
    rw [statsOf_nan, statsOf_set_nan]
    simp [FVal.is_finite, insert_sample]
  | fin x =>
    show Stats.recalc sqrt { statsOf sqrt l n with
      sorted_samples := insert_sample (statsOf sqrt l n).sorted_samples (FVal.fin x) } = _
    rw [statsOf_sorted_samples]
    rw [recalc_canon sqrt _ (by simpa using insert_sample_fin_ne_nil l hs x)]
    simp [statsOf_nan, FVal.is_finite]

/-- Folding Stats::add over any inputs from a canonical state stays
canonical, with the samples extended by insert_sample and the NaN counter
extended by the number of non-finite inputs. -/
theorem foldl_add_canon (sqrt : ℚ → ℚ) :
    ∀ (vals : List FVal) (l : List ℚ) (n : Nat), l.Pairwise (· ≤ ·) →
      vals.foldl (Stats.add sqrt) (statsOf sqrt l n) =
        statsOf sqrt (vals.foldl insert_sample l)
          (n + vals.countP (fun v => !v.is_finite)) := by
  intro vals
  induction vals with
  | nil =>
    intro l n hs
    simp
  | cons v d ih =>
    intro l n hs
    rw [List.foldl_cons, add_canon sqrt l n v hs, List.foldl_cons,
      ih (insert_sample l v) _ (insert_sample_sorted l hs v)]
    congr 1
    cases v with
    | fin q =>
      simp [FVal.is_finite, List.countP_cons]
    | nonfin =>
      simp [FVal.is_finite, List.countP_cons]
      omega

/-- The finite inputs as counted by countP have the filterMap length. -/
theorem filterMap_toQ_length (data : List FVal) :
    (data.filterMap FVal.toQ).length = data.countP (fun v => v.is_finite) := by
  induction data with
  | nil => rfl
  | cons v d ih => cases v <;> simp [FVal.toQ, FVal.is_finite, ih]

/-- The length of the sorted finite samples. -/
theorem sort_only_finite_length (data : List FVal) :
    (sort_only_finite data).length = data.countP (fun v => v.is_finite) := by
  rw [(sort_only_finite_perm data).length_eq, filterMap_toQ_length]

/-- Total length minus the finite count is the non-finite count. -/
theorem countP_sub (data : List FVal) :
    data.length - data.countP (fun v => v.is_finite)
      = data.countP (fun v => !v.is_finite) := by
  induction data with
  | nil => rfl
  | cons v d ih =>
    have hle := List.countP_le_length (p := fun w : FVal => w.is_finite) (l := d)
    have h1 : (FVal.fin 0 :: d).length = d.length + 1 := rfl
    cases v with
    | fin q =>
      have hf : List.countP (fun v => v.is_finite) (FVal.fin q :: d)
          = d.countP (fun v => v.is_finite) + 1 := by
        rw [List.countP_cons]
        rfl
      have hnf : List.countP (fun v => !v.is_finite) (FVal.fin q :: d)
          = d.countP (fun v => !v.is_finite) := by
        rw [List.countP_cons]
        rfl
      rw [hf, hnf, List.length_cons]
      omega
    | nonfin =>
      have hf : List.countP (fun v => v.is_finite) (FVal.nonfin :: d)
          = d.countP (fun v => v.is_finite) := by
        rw [List.countP_cons]
        rfl
      have hnf : List.countP (fun v => !v.is_finite) (FVal.nonfin :: d)
          = d.countP (fun v => !v.is_finite) + 1 := by
        rw [List.countP_cons]
        rfl
      rw [hf, hnf, List.length_cons]
      omega

/-- Master theorem: a state built by Stats::new followed by any sequence of
Stats::add calls is the canonical state of the sorted finite inputs, with
the NaN counter equal to the number of non-finite inputs. -/
theorem session_canon (sqrt : ℚ → ℚ) (init vals : List FVal) :
    vals.foldl (Stats.add sqrt) (Stats.new sqrt init) =
      statsOf sqrt (sort_only_finite (init ++ vals))
        ((init ++ vals).countP (fun v => !v.is_finite)) := by
  rw [new_canon, foldl_add_canon sqrt vals _ _ (sort_only_finite_sorted init)]
  have h1 : vals.foldl insert_sample (sort_only_finite init)
      = sort_only_finite (init ++ vals) := by
    simp [sort_only_finite, List.foldl_append]
  rw [h1]
  congr 1
  rw [sort_only_finite_length, countP_sub, List.countP_append]

end StatsMod

namespace StatsMod

/-- A left fold adding f of each element equals the starting value plus the
sum of the mapped list. -/
theorem foldl_add_map (f : ℚ → ℚ) :
    ∀ (l : List ℚ) (a : ℚ), l.foldl (fun s x => s + f x) a = a + (l.map f).sum := by
  intro l
  induction l with
  | nil =>
    intro a
    simp
  | cons x t ih =>
    intro a
    rw [List.foldl_cons, ih, List.map_cons, List.sum_cons]
    ring

/-- The iterator sum fold equals the starting value plus the list sum. -/
theorem foldl_add_id :
    ∀ (l : List ℚ) (a : ℚ), l.foldl (fun s x => s + x) a = a + l.sum := by
  intro l
  induction l with
  | nil =>
    intro a
    simp
  | cons x t ih =>
    intro a
    rw [List.foldl_cons, ih, List.sum_cons]
    ring

/-- The counting fold of Stats::calc equals the count of elements failing
the predicate. -/
theorem foldl_count_if (p : ℚ → Bool) :
    ∀ (l : List ℚ) (n : Nat),
      l.foldl (fun s x => if p x then s else s + 1) n
        = n + l.countP (fun x => !p x) := by
  intro l
  induction l with
  | nil =>
    intro n
    simp
  | cons x t ih =>
    intro n
    rw [List.foldl_cons]
    cases hp : p x with
    | true =>
      rw [if_pos rfl, ih, List.countP_cons]
      simp [hp]
    | false =>
      rw [if_neg (by simp [hp]), ih, List.countP_cons]
      simp [hp]
      omega

/-- The guarded summing fold of Stats::calc equals the starting value plus
the sum of f over the elements passing the predicate. -/
theorem foldl_add_if (p : ℚ → Bool) (f : ℚ → ℚ) :
    ∀ (l : List ℚ) (a : ℚ),
      l.foldl (fun s x => if p x then s + f x else s) a
        = a + ((l.filter p).map f).sum := by
  intro l
  induction l with
  | nil =>
    intro a
    simp
  | cons x t ih =>
    intro a
    rw [List.foldl_cons]
    cases hp : p x with
    | true =>
      rw [if_pos rfl, ih, List.filter_cons_of_pos hp, List.map_cons, List.sum_cons]
      ring
    | false =>
      rw [if_neg (by simp [hp]), ih, List.filter_cons_of_neg (by simp [hp])]

/-- In a sorted list the default-headed first element bounds every member
from below. -/
theorem headD_le_mem {l : List ℚ} (hs : l.Pairwise (· ≤ ·)) {x : ℚ}
    (hx : x ∈ l) : l.headD 0 ≤ x := by
  obtain ⟨i, hi, rfl⟩ := List.mem_iff_getElem.mp hx
  have h0 : 0 < l.length := by omega
  have hhead : l.headD 0 = l[0] := by
    cases l with
    | nil => simp at hi
    | cons a t => rfl
  rw [hhead]
  exact sorted_le hs h0 hi (by omega)

/-- In a sorted list the default-footed last element bounds every member
from above. -/
theorem mem_le_getLastD {l : List ℚ} (hs : l.Pairwise (· ≤ ·)) {x : ℚ}
    (hx : x ∈ l) : x ≤ l.getLastD 0 := by
  obtain ⟨i, hi, rfl⟩ := List.mem_iff_getElem.mp hx
  have hsub : l.length - 1 < l.length := by omega
  have hlast : l.getLastD 0 = l[l.length - 1] := by
    rw [List.getLastD_eq_getLast?, List.getLast?_eq_getElem?,
      List.getElem?_eq_getElem hsub]
    rfl
  rw [hlast]
  exact sorted_le hs hi hsub (by omega)

/-- The first element of a non-empty list is a member. -/
theorem headD_mem {l : List ℚ} (hne : l ≠ []) : l.headD 0 ∈ l := by
  cases l with
  | nil => exact absurd rfl hne
  | cons a t => exact List.mem_cons_self a t

/-- The last element of a non-empty list is a member. -/
theorem getLastD_mem {l : List ℚ} (hne : l ≠ []) : l.getLastD 0 ∈ l := by
  have hlen : 0 < l.length := List.length_pos.mpr hne
  have hsub : l.length - 1 < l.length := by omega
  have hlast : l.getLastD 0 = l[l.length - 1] := by
    rw [List.getLastD_eq_getLast?, List.getLast?_eq_getElem?,
      List.getElem?_eq_getElem hsub]
    rfl
  rw [hlast]
  exact List.getElem_mem _

/-- The min-max guard of Stats::calc holds exactly when every sample lies
inside the closed Hampel interval. -/
theorem guard_iff {l : List ℚ} (hs : l.Pairwise (· ≤ ·)) (hne : l ≠ []) :
    noOutlierGuard l = true ↔ ∀ x ∈ l, lclOf l ≤ x ∧ x ≤ uclOf l := by
  rw [noOutlierGuard, Bool.and_eq_true, decide_eq_true_eq, decide_eq_true_eq]
  constructor
  · intro hg x hx
    exact ⟨le_trans hg.1 (headD_le_mem hs hx),
      le_trans (mem_le_getLastD hs hx) hg.2⟩
  · intro hall
    exact ⟨(hall _ (headD_mem hne)).1, (hall _ (getLastD_mem hne)).2⟩

/-- outlier_count counts the samples outside the closed Hampel interval,
whichever branch of the guard is taken. -/
theorem outlierCount_eq (l : List ℚ) (hs : l.Pairwise (· ≤ ·)) (hne : l ≠ []) :
    outlierCountOf l = l.countP (fun x => !(inBounds l x)) := by
  rw [outlierCountOf]
  by_cases hg : noOutlierGuard l
  · rw [if_pos hg]
    symm
    rw [List.countP_eq_zero]
    intro x hx
    have hb := (guard_iff hs hne).mp hg x hx
    simp [inBounds, hb.1, hb.2]
  · rw [if_neg hg]
    simpa using foldl_count_if (inBounds l) l 0

/-- outlier_count vanishes exactly when every sample lies inside the closed
Hampel interval. -/
theorem outlierCount_zero_iff (l : List ℚ) (hs : l.Pairwise (· ≤ ·))
    (hne : l ≠ []) :
    outlierCountOf l = 0 ↔ ∀ x ∈ l, lclOf l ≤ x ∧ x ≤ uclOf l := by
  rw [outlierCount_eq l hs hne, List.countP_eq_zero]
  simp [inBounds]

/-- A sample fails the in-bounds test exactly when it lies strictly outside
the closed interval. -/
theorem not_inBounds_iff (l : List ℚ) (x : ℚ) :
    (!(inBounds l x)) = (decide (x < lclOf l) || decide (uclOf l < x)) := by
  by_cases h1 : lclOf l ≤ x
  · by_cases h2 : x ≤ uclOf l
    · simp [inBounds, h1, h2, not_lt.mpr h1, not_lt.mpr h2]
    · simp [inBounds, h1, h2, not_lt.mpr h1, not_le.mp h2]
  · simp [inBounds, h1, not_le.mp h1]

/-- sort_only_finite of all-finite inputs is a permutation of the inputs. -/
theorem sort_map_fin_perm (samples : List ℚ) :
    (sort_only_finite (samples.map FVal.fin)).Perm samples := by
  have h := sort_only_finite_perm (samples.map FVal.fin)
  rwa [List.filterMap_map, show (FVal.toQ ∘ FVal.fin) = some from rfl,
    List.filterMap_some] at h

/-- sort_only_finite of all-finite inputs is non-empty when they are. -/
theorem sort_map_fin_ne_nil {samples : List ℚ} (hne : samples ≠ []) :
    sort_only_finite (samples.map FVal.fin) ≠ [] := by
  intro hc
  have := (sort_map_fin_perm samples).length_eq
  rw [hc] at this
  exact hne (List.length_eq_zero.mp this.symm)

end StatsMod

namespace StatsMod

/-- C1: for every non-empty all-finite sample set in which no sample lies
strictly outside the Hampel bounds of the constructed Stats, the
excluding-outlier mean and standard deviation equal the full-population
mean and standard deviation exactly (the guard branch of Stats::calc
returns the identical values). -/
theorem c1_no_outlier_exact_mean_stdev (sqrt : ℚ → ℚ) (samples : List ℚ)
    (hne : samples ≠ [])
    (hall : ∀ x ∈ samples,
      (Stats.new sqrt (samples.map FVal.fin)).lcl ≤ x ∧
        x ≤ (Stats.new sqrt (samples.map FVal.fin)).ucl) :
    (Stats.new sqrt (samples.map FVal.fin)).mean_excluding_outlier
        = (Stats.new sqrt (samples.map FVal.fin)).mean ∧
      (Stats.new sqrt (samples.map FVal.fin)).stdev_excluding_outlier
        = (Stats.new sqrt (samples.map FVal.fin)).stdev := by
  have hsorted := sort_only_finite_sorted (samples.map FVal.fin)
  have hlne := sort_map_fin_ne_nil hne
  have hperm := sort_map_fin_perm samples
  rw [new_canon, statsOf_ne _ _ _ hlne] at hall ⊢
  have hg : noOutlierGuard (sort_only_finite (samples.map FVal.fin)) = true := by
    rw [guard_iff hsorted hlne]
    intro x hx
    exact hall x (hperm.mem_iff.mp hx)
  constructor
  · show meanExOf _ = meanOf _
    rw [meanExOf, if_pos hg]
  · show stdevExOf sqrt _ = sqrt (varOf _)
    rw [stdevExOf, if_pos hg]

/-- C2: for every non-empty all-finite sample set whose constructed Stats
has outlier_count 0, the filtering accessors degenerate exactly to the
unfiltered ones; no accessor returns the default 0 in this case. -/
theorem c2_zero_outliers_accessors (sqrt : ℚ → ℚ) (samples : List ℚ)
    (hne : samples ≠ [])
    (hzero : (Stats.new sqrt (samples.map FVal.fin)).outlier_count = 0) :
    (Stats.new sqrt (samples.map FVal.fin)).min_excluding_outlier
        = (Stats.new sqrt (samples.map FVal.fin)).min ∧
      (Stats.new sqrt (samples.map FVal.fin)).max_excluding_outlier
        = (Stats.new sqrt (samples.map FVal.fin)).max ∧
      (Stats.new sqrt (samples.map FVal.fin)).median_excluding_outlier
        = (Stats.new sqrt (samples.map FVal.fin)).median := by
  have hsorted := sort_only_finite_sorted (samples.map FVal.fin)
  have hlne := sort_map_fin_ne_nil hne
  rw [new_canon, statsOf_ne _ _ _ hlne] at hzero ⊢
  have hall : ∀ x ∈ sort_only_finite (samples.map FVal.fin),
      lclOf (sort_only_finite (samples.map FVal.fin)) ≤ x ∧
        x ≤ uclOf (sort_only_finite (samples.map FVal.fin)) :=
    (outlierCount_zero_iff _ hsorted hlne).mp hzero
  obtain ⟨a, t, hat⟩ : ∃ a t, sort_only_finite (samples.map FVal.fin) = a :: t := by
    cases hl : sort_only_finite (samples.map FVal.fin) with
    | nil => exact absurd hl hlne
    | cons a t => exact ⟨a, t, rfl⟩
  refine ⟨?_, ?_, ?_⟩
  · show (List.find? _ _).getD 0 = List.headD _ 0
    rw [hat, List.find?_cons_of_pos _ (by
      have := (hall a (by rw [hat]; exact List.mem_cons_self a t)).1
      rw [hat] at this
      simpa using this)]
    rfl
  · show ((List.filter _ _).getLast?).getD 0 = List.getLastD _ 0
    have hfil : List.filter
        (fun x => decide (x ≤ uclOf (sort_only_finite (samples.map FVal.fin))))
        (sort_only_finite (samples.map FVal.fin))
          = sort_only_finite (samples.map FVal.fin) := by
      rw [List.filter_eq_self]
      intro x hx
      simpa using (hall x hx).2
    rw [hfil, List.getLastD_eq_getLast?]
  · show (List.filter _ _).getD ((List.filter _ _).length / 2) 0 = medianOf _
    have hfil : List.filter
        (fun x => decide (lclOf (sort_only_finite (samples.map FVal.fin)) ≤ x) &&
          decide (x ≤ uclOf (sort_only_finite (samples.map FVal.fin))))
        (sort_only_finite (samples.map FVal.fin))
          = sort_only_finite (samples.map FVal.fin) := by
      rw [List.filter_eq_self]
      intro x hx
      have := hall x hx
      simp [this.1, this.2]
    rw [hfil]
    rfl

/-- C5: for every non-empty all-finite sample set, the Stats bounds are the
Hampel identifier bounds median plus or minus 3 times 1.4826 times mad,
where mad is the mean absolute deviation from the median, and outlier_count
counts exactly the samples strictly outside the closed interval. -/
theorem c5_hampel_identifier (sqrt : ℚ → ℚ) (samples : List ℚ)
    (hne : samples ≠ []) :
    (Stats.new sqrt (samples.map FVal.fin)).lcl
        = (Stats.new sqrt (samples.map FVal.fin)).median
          - 3 * (14826 / 10000) * (Stats.new sqrt (samples.map FVal.fin)).mad ∧
      (Stats.new sqrt (samples.map FVal.fin)).ucl
        = (Stats.new sqrt (samples.map FVal.fin)).median
          + 3 * (14826 / 10000) * (Stats.new sqrt (samples.map FVal.fin)).mad ∧
      (Stats.new sqrt (samples.map FVal.fin)).mad
        = ((samples.map (fun x =>
            |x - (Stats.new sqrt (samples.map FVal.fin)).median|)).sum)
            / (samples.length : ℚ) ∧
      (Stats.new sqrt (samples.map FVal.fin)).outlier_count
        = samples.countP (fun x =>
            decide (x < (Stats.new sqrt (samples.map FVal.fin)).lcl) ||
              decide ((Stats.new sqrt (samples.map FVal.fin)).ucl < x)) := by
  have hsorted := sort_only_finite_sorted (samples.map FVal.fin)
  have hlne := sort_map_fin_ne_nil hne
  have hperm := sort_map_fin_perm samples
  rw [new_canon, statsOf_ne _ _ _ hlne]
  refine ⟨rfl, rfl, ?_, ?_⟩
  · show madOf _ = _
    rw [madOf, foldl_add_map, zero_add]
    rw [hperm.length_eq]
    congr 1
    exact ((hperm.map _).sum_eq)
  · show outlierCountOf _ = _
    rw [outlierCount_eq _ hsorted hlne]
    have hfun : (fun x => !(inBounds (sort_only_finite (samples.map FVal.fin)) x))
        = (fun x => decide (x < lclOf (sort_only_finite (samples.map FVal.fin))) ||
            decide (uclOf (sort_only_finite (samples.map FVal.fin)) < x)) :=
      funext (not_inBounds_iff _)
    rw [hfun]
    exact hperm.countP_eq _

/-- C6: median is the element at index count / 2 of the canonical ascending
sort of the finite samples (the upper-median convention), and on an empty
sample sequence median, min and max all return 0. -/
theorem c6_median_convention_and_empty (sqrt : ℚ → ℚ) (samples : List FVal) :
    (Stats.new sqrt samples).median
        = (Multiset.sort (· ≤ ·) (↑(samples.filterMap FVal.toQ))).getD
            ((samples.filterMap FVal.toQ).length / 2) 0 ∧
      ∀ s : Stats, s.sorted_samples = [] →
        s.median = 0 ∧ s.min = 0 ∧ s.max = 0 := by
  constructor
  · have hss : (Stats.new sqrt samples).sorted_samples
        = sort_only_finite samples := by
      rw [new_canon, statsOf_sorted_samples]
    have hlen : (sort_only_finite samples).length
        = (samples.filterMap FVal.toQ).length :=
      (sort_only_finite_perm samples).length_eq
    rw [Stats.median, hss, hlen, sort_only_finite_eq_sort]
  · intro s hs
    rw [Stats.median, Stats.min, Stats.max, hs]
    exact ⟨rfl, rfl, rfl⟩

/-- C8: after Stats::new on any inputs followed by any sequence of
Stats::add calls, the sample sequence is sorted ascending and every element
was supplied as a finite input; nan_count equals the number of non-finite
inputs; and mean, stdev, median, min, max, lcl and ucl coincide with those
of the state built from the finite inputs alone. -/
theorem c8_state_invariants (sqrt : ℚ → ℚ) (init vals : List FVal) :
    ((vals.foldl (Stats.add sqrt) (Stats.new sqrt init)).sorted_samples).Pairwise (· ≤ ·) ∧
      (∀ x ∈ (vals.foldl (Stats.add sqrt) (Stats.new sqrt init)).sorted_samples,
        FVal.fin x ∈ init ++ vals) ∧
      (vals.foldl (Stats.add sqrt) (Stats.new sqrt init)).nan_count
        = (init ++ vals).countP (fun v => !v.is_finite) ∧
      ((vals.foldl (Stats.add sqrt) (Stats.new sqrt init)).mean
          = ((vals.filter (fun v => v.is_finite)).foldl (Stats.add sqrt)
              (Stats.new sqrt (init.filter (fun v => v.is_finite)))).mean ∧
        (vals.foldl (Stats.add sqrt) (Stats.new sqrt init)).stdev
          = ((vals.filter (fun v => v.is_finite)).foldl (Stats.add sqrt)
              (Stats.new sqrt (init.filter (fun v => v.is_finite)))).stdev ∧
        (vals.foldl (Stats.add sqrt) (Stats.new sqrt init)).median
          = ((vals.filter (fun v => v.is_finite)).foldl (Stats.add sqrt)
              (Stats.new sqrt (init.filter (fun v => v.is_finite)))).median ∧
        (vals.foldl (Stats.add sqrt) (Stats.new sqrt init)).min
          = ((vals.filter (fun v => v.is_finite)).foldl (Stats.add sqrt)
              (Stats.new sqrt (init.filter (fun v => v.is_finite)))).min ∧
        (vals.foldl (Stats.add sqrt) (Stats.new sqrt init)).max
          = ((vals.filter (fun v => v.is_finite)).foldl (Stats.add sqrt)
              (Stats.new sqrt (init.filter (fun v => v.is_finite)))).max ∧
        (vals.foldl (Stats.add sqrt) (Stats.new sqrt init)).lcl
          = ((vals.filter (fun v => v.is_finite)).foldl (Stats.add sqrt)
              (Stats.new sqrt (init.filter (fun v => v.is_finite)))).lcl ∧
        (vals.foldl (Stats.add sqrt) (Stats.new sqrt init)).ucl
          = ((vals.filter (fun v => v.is_finite)).foldl (Stats.add sqrt)
              (Stats.new sqrt (init.filter (fun v => v.is_finite)))).ucl) := by
  have hfm : ∀ (d : List FVal),
      (d.filter (fun v => v.is_finite)).filterMap FVal.toQ = d.filterMap FVal.toQ := by
    intro d
    induction d with
    | nil => rfl
    | cons v t ih =>
      cases v with
      | fin q =>
        rw [List.filter_cons_of_pos (by rfl),
          List.filterMap_cons_some (show FVal.toQ (FVal.fin q) = some q from rfl),
          List.filterMap_cons_some (show FVal.toQ (FVal.fin q) = some q from rfl),
          ih]
      | nonfin =>
        rw [List.filter_cons_of_neg (by simp [FVal.is_finite]),
          List.filterMap_cons_none (show FVal.toQ FVal.nonfin = none from rfl), ih]
  have hLF : sort_only_finite ((init.filter (fun v => v.is_finite))
        ++ (vals.filter (fun v => v.is_finite)))
      = sort_only_finite (init ++ vals) := by
    apply sort_only_finite_eq_of_perm
    rw [List.filterMap_append, List.filterMap_append, hfm, hfm]
  rw [session_canon, session_canon]
  rw [hLF]
  refine ⟨?_, ?_, ?_, ?_⟩
  · rw [statsOf_sorted_samples]
    exact sort_only_finite_sorted _
  · rw [statsOf_sorted_samples]
    intro x hx
    have hx2 := (sort_only_finite_perm (init ++ vals)).mem_iff.mp hx
    obtain ⟨v, hv, hvq⟩ := List.mem_filterMap.mp hx2
    cases v with
    | fin q =>
      obtain rfl : q = x := by simpa [FVal.toQ] using hvq
      exact hv
    | nonfin => simp [FVal.toQ] at hvq
  · rw [statsOf_nan]
  · set L := sort_only_finite (init ++ vals)
    set N1 := (init ++ vals).countP (fun v => !v.is_finite)
    set N2 := (init.filter (fun v => v.is_finite)
        ++ vals.filter (fun v => v.is_finite)).countP (fun v => !v.is_finite)
    have hkey : statsOf sqrt L N2 = { statsOf sqrt L N1 with nan_count := N2 } :=
      (statsOf_set_nan sqrt L N1 N2).symm
    rw [hkey]
    exact ⟨rfl, rfl, rfl, rfl, rfl, rfl, rfl⟩

/-- C9: Stats construction is order-independent: two builds whose combined
inputs are permutations of each other (any split between Stats::new and a
sequence of Stats::add calls) yield identical mean, stdev, median, lcl and
ucl, exactly in the rational model. -/
theorem c9_order_independence (sqrt : ℚ → ℚ) (i1 v1 i2 v2 : List FVal)
    (hperm : (i1 ++ v1).Perm (i2 ++ v2)) :
    (v1.foldl (Stats.add sqrt) (Stats.new sqrt i1)).mean
        = (v2.foldl (Stats.add sqrt) (Stats.new sqrt i2)).mean ∧
      (v1.foldl (Stats.add sqrt) (Stats.new sqrt i1)).stdev
        = (v2.foldl (Stats.add sqrt) (Stats.new sqrt i2)).stdev ∧
      (v1.foldl (Stats.add sqrt) (Stats.new sqrt i1)).median
        = (v2.foldl (Stats.add sqrt) (Stats.new sqrt i2)).median ∧
      (v1.foldl (Stats.add sqrt) (Stats.new sqrt i1)).lcl
        = (v2.foldl (Stats.add sqrt) (Stats.new sqrt i2)).lcl ∧
      (v1.foldl (Stats.add sqrt) (Stats.new sqrt i1)).ucl
        = (v2.foldl (Stats.add sqrt) (Stats.new sqrt i2)).ucl := by
  have hL : sort_only_finite (i1 ++ v1) = sort_only_finite (i2 ++ v2) :=
    sort_only_finite_eq_of_perm (hperm.filterMap FVal.toQ)
  rw [session_canon, session_canon, hL]
  set L := sort_only_finite (i2 ++ v2)
  set N1 := (i1 ++ v1).countP (fun v => !v.is_finite)
  set N2 := (i2 ++ v2).countP (fun v => !v.is_finite)
  have hkey : statsOf sqrt L N1 = { statsOf sqrt L N2 with nan_count := N1 } :=
    (statsOf_set_nan sqrt L N2 N1).symm
  rw [hkey]
  exact ⟨rfl, rfl, rfl, rfl, rfl⟩

end StatsMod

namespace StatsMod

/-- Witness for C1 at samples 2, 3, 4 with the identity square root. -/
theorem c1_witness :
    (Stats.new id ([2, 3, 4].map FVal.fin)).mean_excluding_outlier
        = (Stats.new id ([2, 3, 4].map FVal.fin)).mean ∧
      (Stats.new id ([2, 3, 4].map FVal.fin)).stdev_excluding_outlier
        = (Stats.new id ([2, 3, 4].map FVal.fin)).stdev :=
  c1_no_outlier_exact_mean_stdev id [2, 3, 4] (by simp) (by
    have h : sort_only_finite ([2, 3, 4].map FVal.fin) = [2, 3, 4] := by decide
    rw [new_canon, h, statsOf_ne _ _ _ (by simp)]
    intro x hx
    fin_cases hx <;>
      refine ⟨?_, ?_⟩ <;>
        norm_num [lclOf, uclOf, medianOf, madOf, coefficient, List.foldl])

/-- Witness for C2 at samples 2, 3, 4 with the identity square root. -/
theorem c2_witness :
    (Stats.new id ([2, 3, 4].map FVal.fin)).min_excluding_outlier
        = (Stats.new id ([2, 3, 4].map FVal.fin)).min ∧
      (Stats.new id ([2, 3, 4].map FVal.fin)).max_excluding_outlier
        = (Stats.new id ([2, 3, 4].map FVal.fin)).max ∧
      (Stats.new id ([2, 3, 4].map FVal.fin)).median_excluding_outlier
        = (Stats.new id ([2, 3, 4].map FVal.fin)).median :=
  c2_zero_outliers_accessors id [2, 3, 4] (by simp) (by
    have h : sort_only_finite ([2, 3, 4].map FVal.fin) = [2, 3, 4] := by decide
    rw [new_canon, h, statsOf_ne _ _ _ (by simp)]
    show outlierCountOf [2, 3, 4] = 0
    norm_num [outlierCountOf, noOutlierGuard, lclOf, uclOf, medianOf, madOf,
      coefficient, List.foldl])

/-- Witness for C5 at samples 2, 3, 4 with the identity square root. -/
theorem c5_witness :
    (Stats.new id ([2, 3, 4].map FVal.fin)).lcl
        = (Stats.new id ([2, 3, 4].map FVal.fin)).median
          - 3 * (14826 / 10000) * (Stats.new id ([2, 3, 4].map FVal.fin)).mad ∧
      (Stats.new id ([2, 3, 4].map FVal.fin)).ucl
        = (Stats.new id ([2, 3, 4].map FVal.fin)).median
          + 3 * (14826 / 10000) * (Stats.new id ([2, 3, 4].map FVal.fin)).mad ∧
      (Stats.new id ([2, 3, 4].map FVal.fin)).mad
        = (([2, 3, 4].map (fun x : ℚ =>
            |x - (Stats.new id ([2, 3, 4].map FVal.fin)).median|)).sum)
            / (([2, 3, 4] : List ℚ).length : ℚ) ∧
      (Stats.new id ([2, 3, 4].map FVal.fin)).outlier_count
        = ([2, 3, 4] : List ℚ).countP (fun x =>
            decide (x < (Stats.new id ([2, 3, 4].map FVal.fin)).lcl) ||
              decide ((Stats.new id ([2, 3, 4].map FVal.fin)).ucl < x)) :=
  c5_hampel_identifier id [2, 3, 4] (by simp)

/-- Witness for C6 at the empty sample list and the default Stats. -/
theorem c6_witness :
    (Stats.new id []).median
        = (Multiset.sort (· ≤ ·) (↑(([] : List FVal).filterMap FVal.toQ))).getD
            ((([] : List FVal).filterMap FVal.toQ).length / 2) 0 ∧
      Stats.default.median = 0 ∧ Stats.default.min = 0 ∧ Stats.default.max = 0 := by
  have h := c6_median_convention_and_empty id []
  exact ⟨h.1, h.2 Stats.default rfl⟩

/-- Witness for C8 at one non-finite and one finite input. -/
theorem c8_witness :
    (([FVal.fin 3].foldl (Stats.add id)
        (Stats.new id [FVal.nonfin])).sorted_samples).Pairwise (· ≤ ·) ∧
      FVal.fin 3 ∈ [FVal.nonfin] ++ [FVal.fin 3] ∧
      ([FVal.fin 3].foldl (Stats.add id) (Stats.new id [FVal.nonfin])).nan_count
        = ([FVal.nonfin] ++ [FVal.fin 3]).countP (fun v => !v.is_finite) := by
  have h := c8_state_invariants id [FVal.nonfin] [FVal.fin 3]
  refine ⟨h.1, ?_, h.2.2.1⟩
  refine h.2.1 3 ?_
  have hss : ([FVal.fin 3].foldl (Stats.add id)
      (Stats.new id [FVal.nonfin])).sorted_samples = [3] := rfl
  rw [hss]
  exact List.mem_singleton.mpr rfl

/-- Witness for C9: the multiset 1, 2 inserted in two different orders and
splits between construction and addition. -/
theorem c9_witness :
    (([] : List FVal).foldl (Stats.add id)
        (Stats.new id [FVal.fin 1, FVal.fin 2])).mean
        = ([FVal.fin 1].foldl (Stats.add id) (Stats.new id [FVal.fin 2])).mean ∧
      (([] : List FVal).foldl (Stats.add id)
          (Stats.new id [FVal.fin 1, FVal.fin 2])).stdev
        = ([FVal.fin 1].foldl (Stats.add id) (Stats.new id [FVal.fin 2])).stdev ∧
      (([] : List FVal).foldl (Stats.add id)
          (Stats.new id [FVal.fin 1, FVal.fin 2])).median
        = ([FVal.fin 1].foldl (Stats.add id) (Stats.new id [FVal.fin 2])).median ∧
      (([] : List FVal).foldl (Stats.add id)
          (Stats.new id [FVal.fin 1, FVal.fin 2])).lcl
        = ([FVal.fin 1].foldl (Stats.add id) (Stats.new id [FVal.fin 2])).lcl ∧
      (([] : List FVal).foldl (Stats.add id)
          (Stats.new id [FVal.fin 1, FVal.fin 2])).ucl
        = ([FVal.fin 1].foldl (Stats.add id) (Stats.new id [FVal.fin 2])).ucl :=
  c9_order_independence id [FVal.fin 1, FVal.fin 2] [] [FVal.fin 2] [FVal.fin 1]
    (by simpa using List.Perm.swap (FVal.fin 2) (FVal.fin 1) [])

end StatsMod

namespace CmdMod

/-- Looking up the inserted key returns the inserted value. -/
theorem hmInsert_lookup_self (m : List (MeasItem × ℚ)) (k : MeasItem) (v : ℚ) :
    (hmInsert m k v).lookup k = some v := by
  simp [hmInsert, List.lookup]

/-- get_report before the child finished is the NotFinished error. -/
theorem get_report_not_finished {δ : Type} (parse : δ → List (MeasItem × ℚ))
    (c : TimeCmd δ) (h : c.finished = false) :
    TimeCmd.get_report parse c = .error CmdError.NotFinished := by
  simp [TimeCmd.get_report, h]

/-- get_report on a fresh state whose parse yields nothing is the parse
error. -/
theorem get_report_parse_empty {δ : Type} (parse : δ → List (MeasItem × ℚ))
    (c : TimeCmd δ) (hf : c.finished = true) (hc : c.meas_report = none)
    (hp : parse c.err_msg = []) :
    TimeCmd.get_report parse c = .error (CmdError.ParseError "time") := by
  simp [TimeCmd.get_report, hf, hc, hp]

/-- Every successful fresh get_report yields a report with an ExitStatus
entry: the parsed one when the parser produced it, else one synthesized
from the OS exit code with 0 as the default. -/
theorem get_report_ok_exit {δ : Type} (parse : δ → List (MeasItem × ℚ))
    (c : TimeCmd δ) (hc : c.meas_report = none)
    (c' : TimeCmd δ) (r : List (MeasItem × ℚ))
    (h : TimeCmd.get_report parse c = .ok (c', r)) :
    (r.lookup MeasItem.ExitStatus).isSome = true ∧
      ((parse c.err_msg).lookup MeasItem.ExitStatus = none →
        r.lookup MeasItem.ExitStatus = some ((c.exit_code.getD 0 : Int) : ℚ)) ∧
      (∀ w, (parse c.err_msg).lookup MeasItem.ExitStatus = some w →
        r.lookup MeasItem.ExitStatus = some w) := by
  by_cases hf : c.finished = true
  · simp only [TimeCmd.get_report, hf, hc, Bool.not_true, Bool.false_eq_true,
      if_false] at h
    by_cases hemp : (parse c.err_msg).isEmpty = true
    · simp [hemp] at h
    · rw [if_neg hemp] at h
      rw [Except.ok.injEq, Prod.mk.injEq] at h
      obtain ⟨-, hr⟩ := h
      by_cases hn : ((parse c.err_msg).lookup MeasItem.ExitStatus).isNone = true
      · rw [if_pos hn] at hr
        subst hr
        refine ⟨?_, ?_, ?_⟩
        · rw [hmInsert_lookup_self]
          rfl
        · intro _
          rw [hmInsert_lookup_self]
        · intro w hw
          rw [Option.isNone_iff_eq_none] at hn
          rw [hn] at hw
          cases hw
      · rw [if_neg hn] at hr
        subst hr
        refine ⟨?_, ?_, ?_⟩
        · cases hcase : (parse c.err_msg).lookup MeasItem.ExitStatus with
          | none => exact absurd (by rw [hcase]; rfl) hn
          | some w => simp [hcase]
        · intro hnone
          exact absurd (by rw [hnone]; rfl) hn
        · intro w hw
          exact hw
  · rw [get_report_not_finished parse c (by simpa using hf)] at h
    cases h

/-- C3 is refuted on the code: a GNU diagnostic capture labelled Exit
status with value 18 produces an ExitStatus entry holding the parsed 18,
and get_report returns that parsed value even though the OS exit code of
the state is 0. -/
theorem c3_counterexample :
    (gnu_parse_items [("Exit status", 18)]).lookup MeasItem.ExitStatus
        = some 18 ∧
      TimeCmd.get_report gnu_parse_items
          (⟨true, some 0, [("Exit status", 18)], none⟩ :
            TimeCmd (List (String × ℚ)))
        = .ok (⟨true, some 0, [("Exit status", 18)],
              some [(MeasItem.ExitStatus, 18)]⟩,
            [(MeasItem.ExitStatus, 18)]) ∧
      (18 : ℚ) ≠ ((0 : Int) : ℚ) := by
  refine ⟨rfl, rfl, by norm_num⟩

/-- C3 amended: a capture labelled Command being timed produces no entry;
a capture labelled Exit status produces an ExitStatus entry holding the
parsed value; and get_report takes ExitStatus from the OS process exit
code exactly when the parsed report lacks an ExitStatus entry. -/
theorem c3_gnu_exit_status_dispatch (m : List (MeasItem × ℚ)) (v : ℚ)
    {δ : Type} (parse : δ → List (MeasItem × ℚ)) (c : TimeCmd δ)
    (hcache : c.meas_report = none) :
    gnu_insert m "Command being timed" v = m ∧
      (gnu_insert m "Exit status" v).lookup MeasItem.ExitStatus = some v ∧
      (∀ c' r, TimeCmd.get_report parse c = .ok (c', r) →
        ((parse c.err_msg).lookup MeasItem.ExitStatus = none →
          r.lookup MeasItem.ExitStatus = some ((c.exit_code.getD 0 : Int) : ℚ)) ∧
        (∀ w, (parse c.err_msg).lookup MeasItem.ExitStatus = some w →
          r.lookup MeasItem.ExitStatus = some w)) := by
  refine ⟨rfl, ?_, ?_⟩
  · show (hmInsert m MeasItem.ExitStatus v).lookup MeasItem.ExitStatus = some v
    exact hmInsert_lookup_self m MeasItem.ExitStatus v
  · intro c' r h
    have hres := get_report_ok_exit parse c hcache c' r h
    exact ⟨hres.2.1, hres.2.2⟩

/-- Witness for the amended C3 at an Exit status capture of 18 and a fresh
state whose parse yields one User entry and whose OS exit code is 7. -/
theorem c3_amended_witness :
    gnu_insert [] "Command being timed" 18 = [] ∧
      (gnu_insert [] "Exit status" 18).lookup MeasItem.ExitStatus = some 18 := by
  have h := c3_gnu_exit_status_dispatch [] 18 gnu_parse_items
    (⟨true, some 7, [("User time (seconds)", 5)], none⟩ :
      TimeCmd (List (String × ℚ))) rfl
  exact ⟨h.1, h.2.1⟩

/-- C7: get_report errors before the child finished; a fresh call whose
parse yields zero entries errors with the parse error; and every fresh
successful call returns a report containing an ExitStatus entry, taken from
the OS exit code (0 when absent) exactly when the parser produced none. -/
theorem c7_get_report_contract {δ : Type} (parse : δ → List (MeasItem × ℚ))
    (c : TimeCmd δ) :
    (c.finished = false →
        TimeCmd.get_report parse c = .error CmdError.NotFinished) ∧
      (c.finished = true → c.meas_report = none → parse c.err_msg = [] →
        TimeCmd.get_report parse c = .error (CmdError.ParseError "time")) ∧
      (∀ c' r, c.meas_report = none →
        TimeCmd.get_report parse c = .ok (c', r) →
        (r.lookup MeasItem.ExitStatus).isSome = true ∧
          ((parse c.err_msg).lookup MeasItem.ExitStatus = none →
            r.lookup MeasItem.ExitStatus
              = some ((c.exit_code.getD 0 : Int) : ℚ)) ∧
          (∀ w, (parse c.err_msg).lookup MeasItem.ExitStatus = some w →
            r.lookup MeasItem.ExitStatus = some w)) := by
  refine ⟨get_report_not_finished parse c, get_report_parse_empty parse c, ?_⟩
  intro c' r hc h
  exact get_report_ok_exit parse c hc c' r h

/-- Witness for C7: an unfinished state errors, an empty parse errors, and
a successful fresh call with OS exit code 7 and no parsed ExitStatus entry
reports ExitStatus 7. -/
theorem c7_witness :
    TimeCmd.get_report gnu_parse_items
        (⟨false, some 0, [], none⟩ : TimeCmd (List (String × ℚ)))
        = .error CmdError.NotFinished ∧
      TimeCmd.get_report gnu_parse_items
          (⟨true, some 0, [], none⟩ : TimeCmd (List (String × ℚ)))
        = .error (CmdError.ParseError "time") ∧
      (([(MeasItem.ExitStatus, ((7 : Int) : ℚ)), (MeasItem.User, 5)] :
          List (MeasItem × ℚ)).lookup MeasItem.ExitStatus).isSome = true := by
  refine ⟨?_, ?_, ?_⟩
  · exact (c7_get_report_contract gnu_parse_items _).1 rfl
  · exact (c7_get_report_contract gnu_parse_items _).2.1 rfl rfl rfl
  · exact ((c7_get_report_contract gnu_parse_items
      (⟨true, some 7, [("User time (seconds)", 5)], none⟩ :
        TimeCmd (List (String × ℚ)))).2.2 _ _ rfl rfl).1

end CmdMod

namespace CliMod

/-- Folding the normalization step over argument tokens that are not the
delimiter, starting from a non-empty current command, appends the quoted
tokens to the current command. -/
theorem normalized_fold_args :
    ∀ (args : List (List Char)) (commands acc : List (List Char)),
      acc ≠ [] → (∀ a ∈ args, a ≠ delimiters) →
      args.foldl normalized_step (commands, acc)
        = (commands, acc ++ args.map to_quoted) := by
  intro args
  induction args with
  | nil =>
    intro commands acc hacc _
    simp
  | cons a as ih =>
    intro commands acc hacc hargs
    have h1 : acc.isEmpty = false := by
      cases acc with
      | nil => exact absurd rfl hacc
      | cons x xs => rfl
    have hstep : normalized_step (commands, acc) a
        = (commands, acc ++ [to_quoted a]) := by
      simp [normalized_step, h1, hargs a (List.mem_cons_self a as)]
    rw [List.foldl_cons, hstep,
      ih commands (acc ++ [to_quoted a]) (by simp) (fun b hb => hargs b (List.mem_cons_of_mem a hb))]
    simp

/-- C4 is refuted on the code: the token arg contains neither a space nor a
leading dash, yet normalization leaves it single-quoted rather than bare,
and to_quoted differs from the claimed policy on it. -/
theorem c4_counterexample :
    normalized_commands [['c', 'm', 'd'], ['a', 'r', 'g']]
        = [['c', 'm', 'd', space, squote, 'a', 'r', 'g', squote]] ∧
      to_quoted ['a', 'r', 'g'] ≠ to_quoted_claim ['a', 'r', 'g'] ∧
      ['a', 'r', 'g'].contains space = false ∧
      startsWithChar ['a', 'r', 'g'] dash = false := by
  refine ⟨by decide, by decide, by decide, by decide⟩

/-- C4 amended: a token already quoted (starting and ending with a double
quote, or starting and ending with a single quote) or starting with a dash
is left unchanged; every other token is single-quoted with internal single
quotes escaped as backslash-quote; and normalization applies to_quoted to
each argument token after the first token of a command, joining them with
spaces. -/
theorem c4_quoting_policy (s cmd : List Char) (args : List (List Char))
    (hcmd1 : cmd ≠ delimiters) (hcmd2 : cmd.contains space = false)
    (hargs : ∀ a ∈ args, a ≠ delimiters) :
    (is_quoted s = true ∨ startsWithChar s dash = true → to_quoted s = s) ∧
      (is_quoted s = false → startsWithChar s dash = false →
        to_quoted s = [squote] ++ escape_squotes s ++ [squote]) ∧
      normalized_commands (cmd :: args)
        = [joinSpace (cmd :: args.map to_quoted)] := by
  refine ⟨?_, ?_, ?_⟩
  · intro h
    rw [to_quoted, if_pos (Bool.or_eq_true _ _ ▸ h)]
  · intro h1 h2
    rw [to_quoted, if_neg (by simp [h1, h2])]
  · have hmem : space ∉ cmd := by simpa using hcmd2
    have hstep0 : normalized_step ([], []) cmd = ([], [cmd]) := by
      simp [normalized_step, hcmd1, hmem]
    simp only [normalized_commands, List.foldl_cons, hstep0,
      normalized_fold_args args [] [cmd] (by simp) hargs]
    simp

/-- Witness for the amended C4: a dash token stays bare, and a one-command
token list with one space-containing argument is normalized by quoting the
argument. -/
theorem c4_quoting_policy_witness :
    to_quoted [dash, 'f'] = [dash, 'f'] ∧
      normalized_commands [['l', 's'], ['a', space, 'b']]
        = [joinSpace [['l', 's'], to_quoted ['a', space, 'b']]] := by
  have h := c4_quoting_policy [dash, 'f'] ['l', 's'] [['a', space, 'b']]
    (by decide) (by decide) (by decide)
  exact ⟨h.1 (Or.inr (by decide)), h.2.2⟩

end CliMod

namespace MeanMod

/-- C10 is refuted by the code of mean.rs: on the duplicate population
1, 1 the insertion helper reads one past the end of the one-element sorted
slice (the while loop of bisect_right lacks the bounds test that stats.rs
has), so Mean::new panics; in the model the out-of-bounds read is none,
and it propagates through sort_only_finite and Mean::new. -/
theorem c10_mean_new_panics_on_duplicates :
    Mean.new id [FVal.fin 1, FVal.fin 1] = none ∧
      sort_only_finite [FVal.fin 1, FVal.fin 1] = none ∧
      run_right [1] 1 1 = none :=
  ⟨rfl, rfl, rfl⟩

end MeanMod
